import Mathlib

/-!
# FieldPacker and Type size arithmetic of `cpp/rsCppStructs.h`

A shallow embedding of the `FieldPacker` class (a fixed-capacity byte buffer
with a write cursor) and of the size accessors of `Element` and `Type`.

Modelling conventions:

* `size_t` is the 64-bit unsigned type: every `size_t` operation of the source
  is taken modulo `SIZE_MOD = 2 ^ 64`.
* `mData` is the array obtained from `new unsigned char[len]`; it is a list of
  bytes (naturals below 256) whose length is the allocated size.
* A store `mData[i] = b` with `i` outside the allocation is undefined
  behaviour in C++; the embedding stops there with `Fault.outOfBounds i`.
* The `while` loop of `align` is run with a fuel bound; `align` supplies
  enough fuel for the loop to finish or fault (`align_never_outOfFuel`).
* A sequence of calls on a packer is a list of `Op`, run by `FieldPacker.run`,
  which stops at the first call that faults.
-/

namespace RSC

/-- The number of values of `size_t`; arithmetic on `size_t` wraps modulo it. -/
def SIZE_MOD : Nat := 2 ^ 64

/-- Abnormal outcomes of a run of the embedded code. -/
inductive Fault where
  /-- A store to `mData[index]` with `index` outside the allocated array. -/
  | outOfBounds (index : Nat)
  /-- The fuel given to a loop ran out before the loop ended. -/
  | outOfFuel
  deriving DecidableEq, Repr

/-- The three data members of `class FieldPacker`. -/
structure FieldPacker where
  /-- The array `mData`, one natural below 256 per `unsigned char`. -/
  mData : List Nat
  /-- The write cursor `mPos`. -/
  mPos : Nat
  /-- The capacity `mLen`. -/
  mLen : Nat
  deriving DecidableEq, Repr

/-- The constructor `FieldPacker(size_t len)`: cursor 0, capacity `len`, and a
freshly allocated array of `len` bytes whose initial contents are
indeterminate (given here by `garbage`). -/
def FieldPacker.new (len : Nat) (garbage : Nat → Nat) : FieldPacker :=
  { mData := (List.range len).map (fun i => garbage i % 256), mPos := 0, mLen := len }

/-- The assignment `d[i] = b` on an array of `unsigned char`. -/
def store (d : List Nat) (i b : Nat) : Except Fault (List Nat) :=
  if i < d.length then .ok (d.set i (b % 256)) else .error (.outOfBounds i)

/-- The loop `while ((mPos & mask) != 0) { mData[mPos++] = 0; }` of `align`. -/
def alignLoop (mask : Nat) : Nat → FieldPacker → Except Fault FieldPacker
  | 0, fp => if fp.mPos &&& mask ≠ 0 then .error .outOfFuel else .ok fp
  | fuel + 1, fp =>
    if fp.mPos &&& mask ≠ 0 then
      match store fp.mData fp.mPos 0 with
      | .error e => .error e
      | .ok d => alignLoop mask fuel { fp with mData := d, mPos := (fp.mPos + 1) % SIZE_MOD }
    else .ok fp

/-- The method `void align(size_t v)`; `v - 1` is computed in `size_t`. -/
def FieldPacker.align (fp : FieldPacker) (v : Nat) : Except Fault FieldPacker :=
  if v &&& ((v + SIZE_MOD - 1) % SIZE_MOD) ≠ 0 then .ok fp
  else alignLoop ((v + SIZE_MOD - 1) % SIZE_MOD) (fp.mData.length - fp.mPos + 1) fp

/-- The method `void reset()`. -/
def FieldPacker.reset (fp : FieldPacker) : FieldPacker :=
  { fp with mPos := 0 }

/-- The method `void reset(size_t i)`. -/
def FieldPacker.resetTo (fp : FieldPacker) (i : Nat) : FieldPacker :=
  if i ≥ fp.mLen then fp else { fp with mPos := i }

/-- The method `void skip(size_t i)`; the sum `mPos + i` is computed in `size_t`. -/
def FieldPacker.skip (fp : FieldPacker) (i : Nat) : FieldPacker :=
  if (fp.mPos + i) % SIZE_MOD > fp.mLen then fp
  else { fp with mPos := (fp.mPos + i) % SIZE_MOD }

/-- The method `void* getData() const`, as the contents of the array. -/
def FieldPacker.getData (fp : FieldPacker) : List Nat := fp.mData

/-- The method `size_t getLength() const`. -/
def FieldPacker.getLength (fp : FieldPacker) : Nat := fp.mLen

/-- The object representation of a scalar of `size` bytes whose bit pattern is
`t`, on a little-endian target: byte `k` is bits `8k .. 8k+7` of `t`. -/
def objectBytes (size t : Nat) : List Nat :=
  (List.range size).map (fun k => t / 256 ^ k % 256)

/-- The call `memcpy(&d[dst], src, n)` with `src` the `n` bytes to copy. -/
def memcpy (d : List Nat) (dst : Nat) : List Nat → Except Fault (List Nat)
  | [] => .ok d
  | b :: bs =>
    match store d dst b with
    | .error e => .error e
    | .ok d1 => memcpy d1 (dst + 1) bs

/-- The method `template <typename T> void add(T t)` for a scalar type `T` with
`sizeof(T) = size` and bit pattern `t`. -/
def FieldPacker.add (fp : FieldPacker) (size t : Nat) : Except Fault FieldPacker :=
  match fp.align size with
  | .error e => .error e
  | .ok fp1 =>
    if (fp1.mPos + size) % SIZE_MOD ≤ fp1.mLen then
      match memcpy fp1.mData fp1.mPos (objectBytes size t) with
      | .error e => .error e
      | .ok d => .ok { fp1 with mData := d, mPos := (fp1.mPos + size) % SIZE_MOD }
    else .ok fp1

/-- The method `void add(sp<BaseObj> obj)`: `obj` is `none` for a null
reference and `some id` for an object whose `getID()` is the pointer `id`;
the cast `(uint32_t) (uintptr_t) id` keeps the low 32 bits. -/
def FieldPacker.addObj (fp : FieldPacker) (obj : Option Nat) : Except Fault FieldPacker :=
  match obj with
  | some id => fp.add 4 (id % 2 ^ 32)
  | none => fp.add 4 0

/-- Reading back `size` bytes at `pos` and decoding them little-endian: the
inverse of `objectBytes`, used to state the round trip. -/
def readScalar (d : List Nat) (pos size : Nat) : Nat :=
  ((d.drop pos).take size).foldr (fun b acc => b + 256 * acc) 0

/-- The data members of `class Element` that the size accessors read. -/
structure Element where
  mSizeBytes : Nat
  mVectorSize : Nat
  deriving DecidableEq, Repr

/-- The method `size_t Element::getSizeBytes() const`. -/
def Element.getSizeBytes (e : Element) : Nat := e.mSizeBytes

/-- The data members of `class Type`. -/
structure RsType where
  mDimX : Nat
  mDimY : Nat
  mDimZ : Nat
  mDimMipmaps : Bool
  mDimFaces : Bool
  mElementCount : Nat
  mElement : Element
  deriving DecidableEq, Repr

/-- The method `size_t Type::getCount() const`. -/
def RsType.getCount (t : RsType) : Nat := t.mElementCount

/-- The method `size_t Type::getSizeBytes() const`; the product is a `size_t`. -/
def RsType.getSizeBytes (t : RsType) : Nat :=
  (t.mElementCount * t.mElement.getSizeBytes) % SIZE_MOD

/-- One call on a `FieldPacker` together with its arguments: `align(v)`,
`reset()`, `reset(i)`, `skip(n)`, `add<T>(t)` for a scalar of `size` bytes
with bit pattern `t`, and `add(sp<BaseObj>)`. -/
inductive Op where
  | align (v : Nat)
  | reset
  | resetTo (i : Nat)
  | skip (n : Nat)
  | add (size t : Nat)
  | addObj (obj : Option Nat)
  deriving DecidableEq, Repr

/-- Whether the call is one of the two `reset` overloads, the only calls
meant to move the cursor back. -/
def Op.isReset : Op → Bool
  | .reset => true
  | .resetTo _ => true
  | _ => false

/-- The effect of one call on the packer. -/
def FieldPacker.step (fp : FieldPacker) : Op → Except Fault FieldPacker
  | .align v => fp.align v
  | .reset => .ok fp.reset
  | .resetTo i => .ok (fp.resetTo i)
  | .skip n => .ok (fp.skip n)
  | .add size t => fp.add size t
  | .addObj obj => fp.addObj obj

/-- The effect of a sequence of calls, made one after the other; the run stops
at the first call that faults. -/
def FieldPacker.run (fp : FieldPacker) : List Op → Except Fault FieldPacker
  | [] => .ok fp
  | op :: ops =>
    match fp.step op with
    | .error e => .error e
    | .ok fp1 => fp1.run ops

/-! ## Auxiliary lemmas -/

theorem store_ok (d : List Nat) (i b : Nat) (h : i < d.length) :
    store d i b = .ok (d.set i (b % 256)) := by
  simp [store, h]

theorem store_oob (d : List Nat) (i b : Nat) (h : d.length ≤ i) :
    store d i b = .error (.outOfBounds i) := by
  simp [store, Nat.not_lt.mpr h]

/-- The mask `v - 1` computed in `size_t`, for a power of two `v = 2 ^ k`. -/
theorem mask_pow_two (k : Nat) (hk : k < 64) :
    (2 ^ k + SIZE_MOD - 1) % SIZE_MOD = 2 ^ k - 1 := by
  have h1 : 0 < 2 ^ k := Nat.pow_pos (by decide)
  have h2 : 2 ^ k < 2 ^ 64 := Nat.pow_lt_pow_right (by decide) hk
  unfold SIZE_MOD
  have h3 : 2 ^ k + 2 ^ 64 - 1 = (2 ^ k - 1) + 2 ^ 64 := by omega
  rw [h3, Nat.add_mod_right, Nat.mod_eq_of_lt (by omega)]

/-- The loop of `align` with mask `2 ^ k - 1`, started `n` bytes before the
next multiple `p` of `2 ^ k` and with room for the padding. -/
theorem alignLoop_ok (k : Nat) : ∀ (n : Nat) (fp : FieldPacker) (fuel p : Nat),
    fp.mPos + n = p → p % 2 ^ k = 0 →
    (∀ j, fp.mPos ≤ j → j < p → j % 2 ^ k ≠ 0) →
    p ≤ fp.mData.length → fp.mData.length < SIZE_MOD → n ≤ fuel →
    ∃ d, alignLoop (2 ^ k - 1) fuel fp = .ok { mData := d, mPos := p, mLen := fp.mLen } ∧
      d.length = fp.mData.length ∧
      (∀ i, fp.mPos ≤ i → i < p → d[i]? = some 0) ∧
      (∀ i, (i < fp.mPos ∨ p ≤ i) → d[i]? = fp.mData[i]?) := by
  intro n
  induction n with
  | zero =>
    intro fp fuel p hp hmod _ _ _ _
    have hpos : fp.mPos = p := by omega
    refine ⟨fp.mData, ?_, rfl, ?_, ?_⟩
    · cases fuel <;> simp [alignLoop, Nat.and_pow_two_sub_one_eq_mod, hpos, hmod]
      all_goals (cases fp; simp_all)
    · intro i h1 h2; omega
    · intro i _; rfl
  | succ n ih =>
    intro fp fuel p hp hmod hnot hlen hsz hfuel
    obtain ⟨fuel, rfl⟩ : ∃ f, fuel = f + 1 := ⟨fuel - 1, by omega⟩
    have hc : fp.mPos % 2 ^ k ≠ 0 := hnot fp.mPos (Nat.le_refl _) (by omega)
    have hin : fp.mPos < fp.mData.length := by omega
    have hwrap : (fp.mPos + 1) % SIZE_MOD = fp.mPos + 1 := Nat.mod_eq_of_lt (by omega)
    obtain ⟨d, hd, hdl, hz, hu⟩ := ih
      { fp with mData := fp.mData.set fp.mPos 0, mPos := fp.mPos + 1 } fuel p
      (by simp; omega) hmod (fun j h1 h2 => hnot j (by simp at h1; omega) h2)
      (by simpa using hlen) (by simpa using hsz) (by omega)
    refine ⟨d, ?_, ?_, ?_, ?_⟩
    · simp only [alignLoop, Nat.and_pow_two_sub_one_eq_mod, ne_eq, hc, not_false_eq_true,
        if_true, store_ok _ _ _ hin, hwrap]
      simpa using hd
    · simpa using hdl
    · intro i h1 h2
      by_cases hi : i = fp.mPos
      · subst hi
        have := hu fp.mPos (Or.inl (by simp))
        simp only at this
        rw [this]
        simp [hin]
      · exact hz i (by simp; omega) h2
    · intro i hi
      have := hu i (by simp; omega)
      simp only at this
      rw [this, List.getElem?_set_ne (by omega)]

/-- The method `align` at a power of two `2 ^ k`, when the padding up to the
next multiple `p` of `2 ^ k` lies inside the array. -/
theorem align_pow_two_ok (fp : FieldPacker) (k p : Nat) (hk : k < 64)
    (hsz : fp.mData.length < SIZE_MOD)
    (hdiv : 2 ^ k ∣ p) (hge : fp.mPos ≤ p)
    (hleast : ∀ q, 2 ^ k ∣ q → fp.mPos ≤ q → p ≤ q)
    (hroom : p ≤ fp.mData.length) :
    ∃ d, fp.align (2 ^ k) = .ok { mData := d, mPos := p, mLen := fp.mLen } ∧
      d.length = fp.mData.length ∧
      (∀ i, fp.mPos ≤ i → i < p → d[i]? = some 0) ∧
      (∀ i, (i < fp.mPos ∨ p ≤ i) → d[i]? = fp.mData[i]?) := by
  have hmask := mask_pow_two k hk
  have hv : 2 ^ k &&& (2 ^ k - 1) = 0 := by
    rw [Nat.and_pow_two_sub_one_eq_mod, Nat.mod_self]
  have hnot : ∀ j, fp.mPos ≤ j → j < p → j % 2 ^ k ≠ 0 := by
    intro j h1 h2 h3
    have := hleast j (Nat.dvd_of_mod_eq_zero h3) h1
    omega
  obtain ⟨d, hd, rest⟩ := alignLoop_ok k (p - fp.mPos) fp (fp.mData.length - fp.mPos + 1) p
    (by omega) (Nat.mod_eq_zero_of_dvd hdiv) hnot hroom hsz (by omega)
  refine ⟨d, ?_, rest⟩
  simp only [FieldPacker.align, hmask, hv, ne_eq, not_true_eq_false, if_false]
  exact hd

/-- The call `memcpy` whose destination range lies inside the array. -/
theorem memcpy_ok : ∀ (bs d : List Nat) (dst : Nat), dst + bs.length ≤ d.length →
    ∃ d1, memcpy d dst bs = .ok d1 ∧ d1.length = d.length ∧
      (∀ i b, bs[i]? = some b → d1[dst + i]? = some (b % 256)) ∧
      (∀ i, (i < dst ∨ dst + bs.length ≤ i) → d1[i]? = d[i]?) := by
  intro bs
  induction bs with
  | nil =>
    intro d dst _
    exact ⟨d, rfl, rfl, by simp, fun _ _ => rfl⟩
  | cons b bs ih =>
    intro d dst h
    simp only [List.length_cons] at h
    have hin : dst < d.length := by omega
    obtain ⟨d1, h1, hl, hv, hu⟩ := ih (d.set dst (b % 256)) (dst + 1) (by simp; omega)
    refine ⟨d1, ?_, by simpa using hl, ?_, ?_⟩
    · simp only [memcpy, store_ok _ _ _ hin]
      exact h1
    · intro i x hx
      cases i with
      | zero =>
        simp only [List.getElem?_cons_zero, Option.some.injEq] at hx
        subst hx
        rw [Nat.add_zero, hu dst (Or.inl (by omega))]
        simp [hin]
      | succ i =>
        simp only [List.getElem?_cons_succ] at hx
        have := hv i x hx
        rw [show dst + (i + 1) = dst + 1 + i by omega]
        exact this
    · intro i hi
      simp only [List.length_cons] at hi
      rw [hu i (by omega), List.getElem?_set_ne (by omega)]

theorem objectBytes_length (size t : Nat) : (objectBytes size t).length = size := by
  simp [objectBytes]

theorem objectBytes_getElem? (size t i : Nat) (h : i < size) :
    (objectBytes size t)[i]? = some (t / 256 ^ i % 256) := by
  simp [objectBytes, List.getElem?_map, List.getElem?_range h]

/-- The method `add` for a scalar of `2 ^ k` bytes that fits after alignment. -/
theorem add_pow_two_fits (fp : FieldPacker) (k t p : Nat) (hk : k < 64)
    (hlen : fp.mData.length = fp.mLen) (hsz : fp.mLen < SIZE_MOD)
    (hdiv : 2 ^ k ∣ p) (hge : fp.mPos ≤ p)
    (hleast : ∀ q, 2 ^ k ∣ q → fp.mPos ≤ q → p ≤ q)
    (hfit : p + 2 ^ k ≤ fp.mLen) :
    ∃ d, fp.add (2 ^ k) t = .ok { mData := d, mPos := p + 2 ^ k, mLen := fp.mLen } ∧
      d.length = fp.mLen ∧
      (∀ i, fp.mPos ≤ i → i < p → d[i]? = some 0) ∧
      (∀ i, i < 2 ^ k → d[p + i]? = some (t / 256 ^ i % 256)) ∧
      (∀ i, (i < fp.mPos ∨ p + 2 ^ k ≤ i) → d[i]? = fp.mData[i]?) := by
  obtain ⟨d0, h0, hl0, hz0, hu0⟩ := align_pow_two_ok fp k p hk (by omega) hdiv hge hleast
    (by omega)
  obtain ⟨d1, h1, hl1, hv1, hu1⟩ := memcpy_ok (objectBytes (2 ^ k) t) d0 p
    (by rw [objectBytes_length]; omega)
  rw [objectBytes_length] at hu1
  have hwrap : (p + 2 ^ k) % SIZE_MOD = p + 2 ^ k := Nat.mod_eq_of_lt (by omega)
  refine ⟨d1, ?_, by omega, ?_, ?_, ?_⟩
  · simp only [FieldPacker.add, h0, hwrap, hfit, if_true, h1]
  · intro i hi1 hi2
    rw [hu1 i (Or.inl hi2)]
    exact hz0 i hi1 hi2
  · intro i hi
    have := hv1 i _ (objectBytes_getElem? (2 ^ k) t i hi)
    rw [this, Nat.mod_mod]
  · intro i hi
    rw [hu1 i (by omega), hu0 i (by omega)]

/-- The method `add` for a scalar of `2 ^ k` bytes that does not fit after
alignment, the padding itself lying inside the array: only the padding is
written and the cursor stops at the aligned position. -/
theorem add_pow_two_dropped (fp : FieldPacker) (k t p : Nat) (hk : k < 64)
    (hlen : fp.mData.length = fp.mLen) (hsz : fp.mLen < SIZE_MOD)
    (hdiv : 2 ^ k ∣ p) (hge : fp.mPos ≤ p)
    (hleast : ∀ q, 2 ^ k ∣ q → fp.mPos ≤ q → p ≤ q)
    (hroom : p ≤ fp.mLen) (hover : fp.mLen < p + 2 ^ k) (hrep : p + 2 ^ k < SIZE_MOD) :
    ∃ d, fp.add (2 ^ k) t = .ok { mData := d, mPos := p, mLen := fp.mLen } ∧
      d.length = fp.mLen ∧
      (∀ i, fp.mPos ≤ i → i < p → d[i]? = some 0) ∧
      (∀ i, (i < fp.mPos ∨ p ≤ i) → d[i]? = fp.mData[i]?) := by
  obtain ⟨d0, h0, hl0, hz0, hu0⟩ := align_pow_two_ok fp k p hk (by omega) hdiv hge hleast
    (by omega)
  have hwrap : (p + 2 ^ k) % SIZE_MOD = p + 2 ^ k := Nat.mod_eq_of_lt hrep
  refine ⟨d0, ?_, by omega, hz0, hu0⟩
  simp only [FieldPacker.add, h0, hwrap, Nat.not_le.mpr hover, if_false]

/-- The loop of `align` never exhausts the fuel that `align` gives it. -/
theorem alignLoop_never_outOfFuel (mask : Nat) : ∀ (fuel : Nat) (fp : FieldPacker),
    fp.mData.length < SIZE_MOD → fp.mData.length - fp.mPos + 1 ≤ fuel →
    alignLoop mask fuel fp ≠ .error .outOfFuel := by
  intro fuel
  induction fuel with
  | zero => intro fp _ h; omega
  | succ fuel ih =>
    intro fp hsz h
    by_cases hc : fp.mPos &&& mask = 0
    · simp [alignLoop, hc]
    · by_cases hin : fp.mPos < fp.mData.length
      · have hwrap : (fp.mPos + 1) % SIZE_MOD = fp.mPos + 1 := Nat.mod_eq_of_lt (by omega)
        simp only [alignLoop, ne_eq, hc, not_false_eq_true, if_true, store_ok _ _ _ hin, hwrap]
        exact ih _ (by simpa using hsz) (by simp; omega)
      · simp [alignLoop, hc, store_oob _ _ _ (Nat.not_lt.mp hin)]

/-- The method `align` is total: its loop ends or stops at a store outside the
array, it never runs out of fuel. -/
theorem align_never_outOfFuel (fp : FieldPacker) (v : Nat)
    (hsz : fp.mData.length < SIZE_MOD) : fp.align v ≠ .error .outOfFuel := by
  unfold FieldPacker.align
  split
  · simp
  · exact alignLoop_never_outOfFuel _ _ fp hsz (Nat.le_refl _)

/-- The scalar widths 1, 2, 4 and 8 are the powers of two `2 ^ k`, `k ≤ 3`. -/
theorem width_pow_two (w : Nat) (hw : w = 1 ∨ w = 2 ∨ w = 4 ∨ w = 8) :
    ∃ k, k < 64 ∧ w = 2 ^ k := by
  rcases hw with rfl | rfl | rfl | rfl
  · exact ⟨0, by decide, rfl⟩
  · exact ⟨1, by decide, rfl⟩
  · exact ⟨2, by decide, rfl⟩
  · exact ⟨3, by decide, rfl⟩

/-- The test `(v & (v - 1)) == 0` holds of a positive `v` only if `v` is a
power of two. -/
theorem pow_two_of_land_pred : ∀ v : Nat, 0 < v → v &&& (v - 1) = 0 → ∃ k, v = 2 ^ k := by
  intro v
  induction v using Nat.strong_induction_on with
  | _ v ih =>
    intro hpos h
    have hdiv : v / 2 &&& (v - 1) / 2 = 0 := by
      rw [← Nat.and_div_two, h]
    rcases Nat.mod_two_eq_zero_or_one v with hev | hodd
    · have h2 : (v - 1) / 2 = v / 2 - 1 := by omega
      rw [h2] at hdiv
      obtain ⟨k, hk⟩ := ih (v / 2) (by omega) (by omega) hdiv
      exact ⟨k + 1, by rw [Nat.pow_succ, ← hk]; omega⟩
    · have h2 : (v - 1) / 2 = v / 2 := by omega
      rw [h2, Nat.and_self] at hdiv
      exact ⟨0, by simp; omega⟩

/-- The method `align` returns at once, leaving the packer as it is, for every
non-zero `v` that is not a power of two. -/
theorem align_non_pow_two_nonzero (fp : FieldPacker) (v : Nat) (hpos : 0 < v)
    (hv : v < SIZE_MOD) (hnp : ¬ ∃ k, v = 2 ^ k) : fp.align v = .ok fp := by
  have hmask : (v + SIZE_MOD - 1) % SIZE_MOD = v - 1 := by
    have h3 : v + SIZE_MOD - 1 = (v - 1) + SIZE_MOD := by omega
    rw [h3, Nat.add_mod_right, Nat.mod_eq_of_lt (by omega)]
  have hne : v &&& (v - 1) ≠ 0 := fun h => hnp (pow_two_of_land_pred v hpos h)
  simp [FieldPacker.align, hmask, hne]

/-- The method `skip` when the sum `mPos + i` does not wrap around. -/
theorem skip_no_wrap (fp : FieldPacker) (n : Nat) (hrep : fp.mPos + n < SIZE_MOD) :
    fp.skip n = if fp.mPos + n ≤ fp.mLen then { fp with mPos := fp.mPos + n } else fp := by
  simp only [FieldPacker.skip, Nat.mod_eq_of_lt hrep]
  by_cases h : fp.mPos + n ≤ fp.mLen
  · simp [h, Nat.not_lt.mpr h]
  · simp [h, Nat.lt_of_not_le h]

theorem objectBytes_succ (n t : Nat) :
    objectBytes (n + 1) t = t % 256 :: objectBytes n (t / 256) := by
  simp only [objectBytes, List.range_succ_eq_map, List.map_cons, List.map_map, pow_zero,
    Nat.div_one, List.cons.injEq, true_and]
  apply List.map_congr_left
  intro k _
  simp only [Function.comp, Nat.succ_eq_add_one, Nat.pow_succ', Nat.div_div_eq_div_mul]

/-- Decoding the little-endian bytes of `t` gives back the low `8 * n` bits. -/
theorem decode_objectBytes : ∀ (n t : Nat),
    (objectBytes n t).foldr (fun b acc => b + 256 * acc) 0 = t % 256 ^ n := by
  intro n
  induction n with
  | zero => intro t; simp [objectBytes, Nat.mod_one]
  | succ n ih =>
    intro t
    rw [objectBytes_succ, List.foldr_cons, ih, Nat.pow_succ', Nat.mod_mul]

/-- Reading `size` bytes that hold the little-endian bytes of `t`. -/
theorem readScalar_of_bytes (d : List Nat) (pos size t : Nat)
    (h : ∀ i, i < size → d[pos + i]? = some (t / 256 ^ i % 256)) :
    readScalar d pos size = t % 256 ^ size := by
  have hb : (d.drop pos).take size = objectBytes size t := by
    apply List.ext_getElem?
    intro i
    by_cases hi : i < size
    · rw [List.getElem?_take_of_lt hi, List.getElem?_drop, h i hi, objectBytes_getElem? _ _ _ hi]
    · have h1 : ((d.drop pos).take size).length ≤ i := by
        simp only [List.length_take]; omega
      have h2 : (objectBytes size t).length ≤ i := by
        rw [objectBytes_length]; omega
      rw [List.getElem?_eq_none h1, List.getElem?_eq_none h2]
  rw [readScalar, hb, decode_objectBytes]

/-- What a run of the loop of `align` that ends normally leaves behind: the
cursor has not moved back, it is within the array if it was, and the capacity,
the array length and every byte below the old cursor are as before. -/
theorem alignLoop_frame (mask : Nat) : ∀ (fuel : Nat) (fp fp1 : FieldPacker),
    fp.mData.length < SIZE_MOD → alignLoop mask fuel fp = .ok fp1 →
    fp.mPos ≤ fp1.mPos ∧ fp1.mLen = fp.mLen ∧ fp1.mData.length = fp.mData.length ∧
      (fp.mPos ≤ fp.mData.length → fp1.mPos ≤ fp.mData.length) ∧
      (∀ i, i < fp.mPos → fp1.mData[i]? = fp.mData[i]?) := by
  intro fuel
  induction fuel with
  | zero =>
    intro fp fp1 _ h
    by_cases hc : fp.mPos &&& mask = 0
    · simp only [alignLoop, ne_eq, hc, not_true_eq_false, if_false, Except.ok.injEq] at h
      subst h
      exact ⟨Nat.le_refl _, rfl, rfl, fun h => h, fun _ _ => rfl⟩
    · simp [alignLoop, hc] at h
  | succ fuel ih =>
    intro fp fp1 hsz h
    by_cases hc : fp.mPos &&& mask = 0
    · simp only [alignLoop, ne_eq, hc, not_true_eq_false, if_false, Except.ok.injEq] at h
      subst h
      exact ⟨Nat.le_refl _, rfl, rfl, fun h => h, fun _ _ => rfl⟩
    · by_cases hin : fp.mPos < fp.mData.length
      · have hwrap : (fp.mPos + 1) % SIZE_MOD = fp.mPos + 1 := Nat.mod_eq_of_lt (by omega)
        simp only [alignLoop, ne_eq, hc, not_false_eq_true, if_true, store_ok _ _ _ hin,
          hwrap] at h
        obtain ⟨h1, h2, h3, h4, h5⟩ := ih _ fp1 (by simpa using hsz) h
        simp only [List.length_set] at h1 h2 h3 h4 h5
        refine ⟨by omega, h2, h3, fun _ => h4 (by omega), ?_⟩
        intro i hi
        rw [h5 i (by omega), List.getElem?_set_ne (by omega)]
      · simp [alignLoop, hc, store_oob _ _ _ (Nat.not_lt.mp hin)] at h

/-- A store of the loop of `align` that falls outside the array is at or
above the cursor the loop started from. -/
theorem alignLoop_fault (mask : Nat) : ∀ (fuel : Nat) (fp : FieldPacker) (j : Nat),
    fp.mData.length < SIZE_MOD → alignLoop mask fuel fp = .error (.outOfBounds j) →
    fp.mPos ≤ j ∧ fp.mData.length ≤ j := by
  intro fuel
  induction fuel with
  | zero =>
    intro fp j _ h
    by_cases hc : fp.mPos &&& mask = 0 <;> simp [alignLoop, hc] at h
  | succ fuel ih =>
    intro fp j hsz h
    by_cases hc : fp.mPos &&& mask = 0
    · simp [alignLoop, hc] at h
    · by_cases hin : fp.mPos < fp.mData.length
      · have hwrap : (fp.mPos + 1) % SIZE_MOD = fp.mPos + 1 := Nat.mod_eq_of_lt (by omega)
        simp only [alignLoop, ne_eq, hc, not_false_eq_true, if_true, store_ok _ _ _ hin,
          hwrap] at h
        have := ih _ j (by simpa using hsz) h
        simp only [List.length_set] at this
        omega
      · simp only [alignLoop, ne_eq, hc, not_false_eq_true, if_true,
          store_oob _ _ _ (Nat.not_lt.mp hin), Except.error.injEq,
          Fault.outOfBounds.injEq] at h
        omega

/-- The method `align` that returns normally: see `alignLoop_frame`. -/
theorem align_frame (fp fp1 : FieldPacker) (v : Nat) (hsz : fp.mData.length < SIZE_MOD)
    (h : fp.align v = .ok fp1) :
    fp.mPos ≤ fp1.mPos ∧ fp1.mLen = fp.mLen ∧ fp1.mData.length = fp.mData.length ∧
      (fp.mPos ≤ fp.mData.length → fp1.mPos ≤ fp.mData.length) ∧
      (∀ i, i < fp.mPos → fp1.mData[i]? = fp.mData[i]?) := by
  unfold FieldPacker.align at h
  split at h
  · simp only [Except.ok.injEq] at h
    subst h
    exact ⟨Nat.le_refl _, rfl, rfl, fun h => h, fun _ _ => rfl⟩
  · exact alignLoop_frame _ _ fp fp1 hsz h

/-- A store of `align` that falls outside the array is at or above the cursor. -/
theorem align_fault (fp : FieldPacker) (v j : Nat) (hsz : fp.mData.length < SIZE_MOD)
    (h : fp.align v = .error (.outOfBounds j)) : fp.mPos ≤ j ∧ fp.mData.length ≤ j := by
  unfold FieldPacker.align at h
  split at h
  · simp at h
  · exact alignLoop_fault _ _ fp j hsz h

/-- A `memcpy` that returns normally keeps the array length and every byte
below the destination. -/
theorem memcpy_frame : ∀ (bs d d1 : List Nat) (dst : Nat), memcpy d dst bs = .ok d1 →
    d1.length = d.length ∧ (∀ i, i < dst → d1[i]? = d[i]?) := by
  intro bs
  induction bs with
  | nil =>
    intro d d1 dst h
    simp only [memcpy, Except.ok.injEq] at h
    subst h
    exact ⟨rfl, fun _ _ => rfl⟩
  | cons b bs ih =>
    intro d d1 dst h
    by_cases hin : dst < d.length
    · simp only [memcpy, store_ok _ _ _ hin] at h
      obtain ⟨h1, h2⟩ := ih _ d1 (dst + 1) h
      simp only [List.length_set] at h1
      refine ⟨h1, ?_⟩
      intro i hi
      rw [h2 i (by omega), List.getElem?_set_ne (by omega)]
    · simp [memcpy, store_oob _ _ _ (Nat.not_lt.mp hin)] at h

/-- A store of `memcpy` that falls outside the array is at or above the
destination; `memcpy` has no loop that could run out of fuel. -/
theorem memcpy_fault : ∀ (bs d : List Nat) (dst : Nat) (e : Fault),
    memcpy d dst bs = .error e → ∃ j, e = .outOfBounds j ∧ dst ≤ j ∧ d.length ≤ j := by
  intro bs
  induction bs with
  | nil => intro d dst e h; simp [memcpy] at h
  | cons b bs ih =>
    intro d dst e h
    by_cases hin : dst < d.length
    · simp only [memcpy, store_ok _ _ _ hin] at h
      obtain ⟨j, hj, h1, h2⟩ := ih _ (dst + 1) e h
      simp only [List.length_set] at h2
      exact ⟨j, hj, by omega, h2⟩
    · simp only [memcpy, store_oob _ _ _ (Nat.not_lt.mp hin), Except.error.injEq] at h
      exact ⟨dst, h.symm, Nat.le_refl _, Nat.not_lt.mp hin⟩

/-- The method `add` that returns normally keeps the capacity, the array
length and every byte below the old cursor, and leaves the cursor within the
capacity. -/
theorem add_frame (fp fp1 : FieldPacker) (size t : Nat) (hsz : fp.mData.length < SIZE_MOD)
    (h : fp.add size t = .ok fp1) :
    fp1.mLen = fp.mLen ∧ fp1.mData.length = fp.mData.length ∧
      (fp.mData.length = fp.mLen → fp.mPos ≤ fp.mLen → fp1.mPos ≤ fp.mLen) ∧
      (∀ i, i < fp.mPos → fp1.mData[i]? = fp.mData[i]?) := by
  cases ha : fp.align size with
  | error e => simp [FieldPacker.add, ha] at h
  | ok fp0 =>
    obtain ⟨a1, a2, a3, a4, a5⟩ := align_frame fp fp0 size hsz ha
    simp only [FieldPacker.add, ha] at h
    split at h
    · rename_i hfit
      cases hm : memcpy fp0.mData fp0.mPos (objectBytes size t) with
      | error e => simp [hm] at h
      | ok d =>
        obtain ⟨m1, m2⟩ := memcpy_frame _ _ _ _ hm
        simp only [hm, Except.ok.injEq] at h
        subst h
        refine ⟨a2, by simp only; omega, fun _ _ => by simp only; omega, ?_⟩
        intro i hi
        show d[i]? = fp.mData[i]?
        rw [m2 i (by omega), a5 i hi]
    · simp only [Except.ok.injEq] at h
      subst h
      exact ⟨a2, a3, fun h1 h2 => by have := a4 (by omega); omega, a5⟩

/-- A fault of `add` is a store outside the array, at or above the cursor. -/
theorem add_fault (fp : FieldPacker) (size t : Nat) (e : Fault)
    (hsz : fp.mData.length < SIZE_MOD) (h : fp.add size t = .error e) :
    ∃ j, e = .outOfBounds j ∧ fp.mPos ≤ j ∧ fp.mData.length ≤ j := by
  cases ha : fp.align size with
  | error e0 =>
    simp only [FieldPacker.add, ha, Except.error.injEq] at h
    subst h
    cases e0 with
    | outOfFuel => exact absurd ha (align_never_outOfFuel fp size hsz)
    | outOfBounds j => exact ⟨j, rfl, align_fault fp size j hsz ha⟩
  | ok fp0 =>
    obtain ⟨a1, _, a3, _, _⟩ := align_frame fp fp0 size hsz ha
    simp only [FieldPacker.add, ha] at h
    split at h
    · cases hm : memcpy fp0.mData fp0.mPos (objectBytes size t) with
      | error e1 =>
        simp only [hm, Except.error.injEq] at h
        subst h
        obtain ⟨j, hj, h1, h2⟩ := memcpy_fault _ _ _ _ hm
        exact ⟨j, hj, by omega, by omega⟩
      | ok d => simp [hm] at h
    · simp at h

/-- One call that returns normally from a packer whose array has the length
`mLen` and whose cursor is within the capacity leaves such a packer, with the
same capacity. -/
theorem step_invariant (fp fp1 : FieldPacker) (op : Op)
    (hlen : fp.mData.length = fp.mLen) (hsz : fp.mLen < SIZE_MOD) (hc : fp.mPos ≤ fp.mLen)
    (h : fp.step op = .ok fp1) :
    fp1.mData.length = fp1.mLen ∧ fp1.mLen = fp.mLen ∧ fp1.mPos ≤ fp1.mLen := by
  cases op with
  | align v =>
    obtain ⟨_, a2, a3, a4, _⟩ := align_frame fp fp1 v (by omega) h
    have := a4 (by omega)
    omega
  | reset =>
    simp only [FieldPacker.step, Except.ok.injEq] at h
    subst h
    simp [FieldPacker.reset, hlen]
  | resetTo i =>
    simp only [FieldPacker.step, Except.ok.injEq] at h
    subst h
    unfold FieldPacker.resetTo
    split
    · exact ⟨hlen, rfl, hc⟩
    · exact ⟨hlen, rfl, by simp only; omega⟩
  | skip n =>
    simp only [FieldPacker.step, Except.ok.injEq] at h
    subst h
    unfold FieldPacker.skip
    split
    · exact ⟨hlen, rfl, hc⟩
    · exact ⟨hlen, rfl, by simp only; omega⟩
  | add size t =>
    obtain ⟨a1, a2, a3, _⟩ := add_frame fp fp1 size t (by omega) h
    have := a3 hlen hc
    omega
  | addObj obj =>
    have h2 : ∃ t, fp.add 4 t = .ok fp1 := by
      cases obj with
      | none => exact ⟨0, h⟩
      | some id => exact ⟨id % 2 ^ 32, h⟩
    obtain ⟨t, h2⟩ := h2
    obtain ⟨a1, a2, a3, _⟩ := add_frame fp fp1 4 t (by omega) h2
    have := a3 hlen hc
    omega

/-- A fault of one call is a store outside the array, at or above the cursor;
no call runs out of fuel. -/
theorem step_fault (fp : FieldPacker) (op : Op) (e : Fault)
    (hsz : fp.mData.length < SIZE_MOD) (h : fp.step op = .error e) :
    ∃ j, e = .outOfBounds j ∧ fp.mPos ≤ j ∧ fp.mData.length ≤ j := by
  cases op with
  | align v =>
    cases e with
    | outOfFuel => exact absurd h (align_never_outOfFuel fp v hsz)
    | outOfBounds j => exact ⟨j, rfl, align_fault fp v j hsz h⟩
  | reset => simp [FieldPacker.step] at h
  | resetTo i => simp [FieldPacker.step] at h
  | skip n => simp [FieldPacker.step] at h
  | add size t => exact add_fault fp size t e hsz h
  | addObj obj =>
    cases obj with
    | none => exact add_fault fp 4 0 e hsz h
    | some id => exact add_fault fp 4 (id % 2 ^ 32) e hsz h

/-- A sequence of calls that returns normally, started from a packer whose
array has the length `mLen` and whose cursor is within the capacity, ends in
such a packer with the same capacity: only a store outside the array can
break the cursor invariant. -/
theorem run_invariant : ∀ (ops : List Op) (fp fp1 : FieldPacker),
    fp.mData.length = fp.mLen → fp.mLen < SIZE_MOD → fp.mPos ≤ fp.mLen →
    fp.run ops = .ok fp1 →
    fp1.mData.length = fp1.mLen ∧ fp1.mLen = fp.mLen ∧ fp1.mPos ≤ fp1.mLen := by
  intro ops
  induction ops with
  | nil =>
    intro fp fp1 hlen _ hc h
    simp only [FieldPacker.run, Except.ok.injEq] at h
    subst h
    exact ⟨hlen, rfl, hc⟩
  | cons op ops ih =>
    intro fp fp1 hlen hsz hc h
    cases hs : fp.step op with
    | error e => simp [FieldPacker.run, hs] at h
    | ok fp0 =>
      simp only [FieldPacker.run, hs] at h
      obtain ⟨s1, s2, s3⟩ := step_invariant fp fp0 op hlen hsz hc hs
      obtain ⟨r1, r2, r3⟩ := ih fp0 fp1 s1 (by omega) s3 h
      exact ⟨r1, by omega, r3⟩

/-- A fault of a sequence of calls on a freshly constructed packer is a store
outside the array, at an index that is at least the capacity. -/
theorem run_fault : ∀ (ops : List Op) (fp : FieldPacker) (e : Fault),
    fp.mData.length = fp.mLen → fp.mLen < SIZE_MOD → fp.mPos ≤ fp.mLen →
    fp.run ops = .error e → ∃ j, e = .outOfBounds j ∧ fp.mLen ≤ j := by
  intro ops
  induction ops with
  | nil => intro fp e _ _ _ h; simp [FieldPacker.run] at h
  | cons op ops ih =>
    intro fp e hlen hsz hc h
    cases hs : fp.step op with
    | error e0 =>
      simp only [FieldPacker.run, hs, Except.error.injEq] at h
      subst h
      obtain ⟨j, hj, _, h2⟩ := step_fault fp op e0 (by omega) hs
      exact ⟨j, hj, by omega⟩
    | ok fp0 =>
      simp only [FieldPacker.run, hs] at h
      obtain ⟨s1, s2, s3⟩ := step_invariant fp fp0 op hlen hsz hc hs
      obtain ⟨j, hj, h2⟩ := ih fp0 e s1 (by omega) s3 h
      exact ⟨j, hj, by omega⟩

/-! ## The claims -/

/-- C1: `add` of a fixed-width scalar of width `w ∈ {1,2,4,8}` on a packer with
cursor `c ≤ capacity`: with `p` the least multiple of `w` that is `≥ c`, if
`p + w ≤ capacity` then `add` returns with the cursor at `p + w`, the bytes at
`[c, p)` zero and the bytes at `[p, p + w)` the little-endian bytes of the
value. -/
theorem add_scalar_fits (fp : FieldPacker) (w t p : Nat)
    (hw : w = 1 ∨ w = 2 ∨ w = 4 ∨ w = 8)
    (hlen : fp.mData.length = fp.mLen) (hsz : fp.mLen < SIZE_MOD)
    (hc : fp.mPos ≤ fp.mLen)
    (hdiv : w ∣ p) (hge : fp.mPos ≤ p) (hleast : ∀ q, w ∣ q → fp.mPos ≤ q → p ≤ q)
    (hfit : p + w ≤ fp.mLen) :
    ∃ fp1, fp.add w t = .ok fp1 ∧ fp1.mPos = p + w ∧
      (∀ i, fp.mPos ≤ i → i < p → fp1.mData[i]? = some 0) ∧
      (∀ i, i < w → fp1.mData[p + i]? = some (t / 256 ^ i % 256)) := by
  have _ := hc
  obtain ⟨k, hk, rfl⟩ := width_pow_two w hw
  obtain ⟨d, hd, _, hz, hv, _⟩ := add_pow_two_fits fp k t p hk hlen hsz hdiv hge hleast hfit
  exact ⟨_, hd, rfl, hz, hv⟩

/-- Witness of C1: a 4-byte scalar added at cursor 1 of an 8-byte packer. -/
theorem add_scalar_fits_witness :
    ∃ fp1, (FieldPacker.mk [9, 9, 9, 9, 9, 9, 9, 9] 1 8).add 4 2 = .ok fp1 ∧
      fp1.mPos = 4 + 4 ∧
      (∀ i, 1 ≤ i → i < 4 → fp1.mData[i]? = some 0) ∧
      (∀ i, i < 4 → fp1.mData[4 + i]? = some (2 / 256 ^ i % 256)) :=
  add_scalar_fits (FieldPacker.mk [9, 9, 9, 9, 9, 9, 9, 9] 1 8) 4 2 4
    (by decide) rfl (by decide) (by decide) (by decide) (by decide)
    (by intro q h1 h2; simp only at h2; omega) (by decide)

/-- C2, as stated, fails: on a 4-byte packer with the cursor at 1 a 4-byte
scalar does not fit (`1 + 4 > 4`, and `4 + 4 > 4` after alignment), yet `add`
moves the cursor to 4 and zeroes the bytes 1, 2 and 3. -/
theorem add_overflow_not_noop :
    (FieldPacker.mk [7, 7, 7, 7] 1 4).mPos ≤ (FieldPacker.mk [7, 7, 7, 7] 1 4).mLen ∧
    (FieldPacker.mk [7, 7, 7, 7] 1 4).mLen < (FieldPacker.mk [7, 7, 7, 7] 1 4).mPos + 4 ∧
    (FieldPacker.mk [7, 7, 7, 7] 1 4).add 4 5 = .ok (FieldPacker.mk [7, 0, 0, 0] 4 4) ∧
    (FieldPacker.mk [7, 7, 7, 7] 1 4).add 4 5 ≠ .ok (FieldPacker.mk [7, 7, 7, 7] 1 4) := by
  refine ⟨by decide, by decide, rfl, ?_⟩
  rw [show (FieldPacker.mk [7, 7, 7, 7] 1 4).add 4 5 = .ok (FieldPacker.mk [7, 0, 0, 0] 4 4)
    from rfl]
  simp

/-- C2, amended: `add` of a scalar of width `w ∈ {1,2,4,8}` that does not fit
after alignment drops only the value. With `p` the least multiple of `w` that
is `≥ c`, `p ≤ capacity`, `capacity < p + w` and `p + w` representable in
`size_t`, `add` returns with the cursor at `p`, the padding bytes `[c, p)`
zero and every other byte as before; it changes nothing at all when the
cursor was already a multiple of `w`. -/
theorem add_scalar_dropped (fp : FieldPacker) (w t p : Nat)
    (hw : w = 1 ∨ w = 2 ∨ w = 4 ∨ w = 8)
    (hlen : fp.mData.length = fp.mLen) (hsz : fp.mLen < SIZE_MOD)
    (hc : fp.mPos ≤ fp.mLen)
    (hdiv : w ∣ p) (hge : fp.mPos ≤ p) (hleast : ∀ q, w ∣ q → fp.mPos ≤ q → p ≤ q)
    (hroom : p ≤ fp.mLen) (hover : fp.mLen < p + w) (hrep : p + w < SIZE_MOD) :
    ∃ fp1, fp.add w t = .ok fp1 ∧ fp1.mPos = p ∧ fp1.mLen = fp.mLen ∧
      (∀ i, fp.mPos ≤ i → i < p → fp1.mData[i]? = some 0) ∧
      (∀ i, (i < fp.mPos ∨ p ≤ i) → fp1.mData[i]? = fp.mData[i]?) ∧
      (w ∣ fp.mPos → fp1 = fp) := by
  have _ := hc
  obtain ⟨k, hk, rfl⟩ := width_pow_two w hw
  obtain ⟨d, hd, _, hz, hu⟩ :=
    add_pow_two_dropped fp k t p hk hlen hsz hdiv hge hleast hroom hover hrep
  refine ⟨_, hd, rfl, rfl, hz, hu, ?_⟩
  intro hal
  have hp : p = fp.mPos := Nat.le_antisymm (hleast fp.mPos hal (Nat.le_refl _)) hge
  have hdata : d = fp.mData := by
    apply List.ext_getElem?
    intro i
    by_cases hi : i < fp.mPos
    · exact hu i (Or.inl hi)
    · exact hu i (Or.inr (by omega))
  cases fp
  simp_all

/-- Witness of C2 amended: a 4-byte scalar at cursor 1 of a 6-byte packer. -/
theorem add_scalar_dropped_witness :
    ∃ fp1, (FieldPacker.mk [7, 7, 7, 7, 7, 7] 1 6).add 4 5 = .ok fp1 ∧ fp1.mPos = 4 ∧
      fp1.mLen = 6 ∧
      (∀ i, 1 ≤ i → i < 4 → fp1.mData[i]? = some 0) ∧
      (∀ i, (i < 1 ∨ 4 ≤ i) → fp1.mData[i]? = [7, 7, 7, 7, 7, 7][i]?) ∧
      (4 ∣ 1 → fp1 = FieldPacker.mk [7, 7, 7, 7, 7, 7] 1 6) :=
  add_scalar_dropped (FieldPacker.mk [7, 7, 7, 7, 7, 7] 1 6) 4 5 4
    (by decide) rfl (by decide) (by decide) (by decide) (by decide)
    (by intro q h1 h2; simp only at h2; omega) (by decide) (by decide) (by decide)

/-- C3 fails at `v = 0`, which is not a power of two: `0 & (0 - 1)` is 0, so
`align(0)` does not return early; its loop runs with the mask `SIZE_MAX`, and
from cursor 1 of a 4-byte packer it goes on to store at index 4, outside the
array. -/
theorem align_zero_not_noop :
    (FieldPacker.mk [7, 7, 7, 7] 1 4).align 0 = .error (.outOfBounds 4) := by
  rfl

/-- The method `align(v)` with `v = 2 ^ k` a power of two, on a packer whose
cursor `c` has its next multiple `p` of `v` within the capacity: `align`
returns with the cursor at `p`, the least multiple of `v` that is `≥ c` (so
`cursor % v = 0` and fewer than `v` bytes are skipped), every byte at an index
in `[c, p)` is zero, and every other byte is as before. -/
theorem align_power_of_two_spec (fp : FieldPacker) (k p : Nat) (hk : k < 64)
    (hlen : fp.mData.length = fp.mLen) (hsz : fp.mLen < SIZE_MOD)
    (hdiv : 2 ^ k ∣ p) (hge : fp.mPos ≤ p)
    (hleast : ∀ q, 2 ^ k ∣ q → fp.mPos ≤ q → p ≤ q)
    (hroom : p ≤ fp.mLen) :
    ∃ fp1, fp.align (2 ^ k) = .ok fp1 ∧ fp1.mPos = p ∧ fp1.mLen = fp.mLen ∧
      fp1.mPos % 2 ^ k = 0 ∧ fp1.mPos - fp.mPos < 2 ^ k ∧
      (∀ i, fp.mPos ≤ i → i < fp1.mPos → fp1.mData[i]? = some 0) ∧
      (∀ i, (i < fp.mPos ∨ fp1.mPos ≤ i) → fp1.mData[i]? = fp.mData[i]?) := by
  obtain ⟨d, hd, _, hz, hu⟩ := align_pow_two_ok fp k p hk (by omega) hdiv hge hleast (by omega)
  refine ⟨_, hd, rfl, rfl, Nat.mod_eq_zero_of_dvd hdiv, ?_, hz, hu⟩
  show p - fp.mPos < 2 ^ k
  by_contra hcon
  have h1 : 2 ^ k ≤ p := by omega
  have h2 : 2 ^ k ∣ p - 2 ^ k := Nat.dvd_sub' hdiv (Nat.dvd_refl _)
  have := hleast (p - 2 ^ k) h2 (by omega)
  have h3 : 0 < 2 ^ k := Nat.pow_pos (by decide)
  omega

/-- An instance of `align_power_of_two_spec`: `align(4)` at cursor 1 of an
8-byte packer. -/
theorem align_power_of_two_spec_witness :
    ∃ fp1, (FieldPacker.mk [7, 7, 7, 7, 7, 7, 7, 7] 1 8).align (2 ^ 2) = .ok fp1 ∧
      fp1.mPos = 4 ∧ fp1.mLen = 8 ∧ fp1.mPos % 2 ^ 2 = 0 ∧ fp1.mPos - 1 < 2 ^ 2 ∧
      (∀ i, 1 ≤ i → i < fp1.mPos → fp1.mData[i]? = some 0) ∧
      (∀ i, (i < 1 ∨ fp1.mPos ≤ i) → fp1.mData[i]? = [7, 7, 7, 7, 7, 7, 7, 7][i]?) :=
  align_power_of_two_spec (FieldPacker.mk [7, 7, 7, 7, 7, 7, 7, 7] 1 8) 2 4
    (by decide) rfl (by decide) (by decide) (by decide)
    (by intro q h1 h2; simp only at h2; omega) (by decide)

/-- C5: round trip of `add`: for a scalar `t` of width `w ∈ {1,2,4,8}` (so
`t < 256 ^ w`) and a packer whose cursor `p` is a multiple of `w` with
`p + w ≤ capacity`, `add` returns, and reading `w` bytes at `p` and decoding
them in the same byte order gives `t` back. -/
theorem add_read_roundtrip (fp : FieldPacker) (w t : Nat)
    (hw : w = 1 ∨ w = 2 ∨ w = 4 ∨ w = 8)
    (hlen : fp.mData.length = fp.mLen) (hsz : fp.mLen < SIZE_MOD)
    (hal : w ∣ fp.mPos) (hfit : fp.mPos + w ≤ fp.mLen) (ht : t < 256 ^ w) :
    ∃ fp1, fp.add w t = .ok fp1 ∧ fp1.mPos = fp.mPos + w ∧
      readScalar fp1.mData fp.mPos w = t := by
  obtain ⟨k, hk, rfl⟩ := width_pow_two w hw
  obtain ⟨d, hd, _, _, hv, _⟩ := add_pow_two_fits fp k t fp.mPos hk hlen hsz hal
    (Nat.le_refl _) (fun q _ h => h) hfit
  refine ⟨_, hd, rfl, ?_⟩
  rw [readScalar_of_bytes d fp.mPos (2 ^ k) t hv, Nat.mod_eq_of_lt ht]

/-- Witness of C5: the 4-byte value `0x01020304` written at cursor 4. -/
theorem add_read_roundtrip_witness :
    ∃ fp1, (FieldPacker.mk [9, 9, 9, 9, 9, 9, 9, 9] 4 8).add 4 16909060 = .ok fp1 ∧
      fp1.mPos = 4 + 4 ∧ readScalar fp1.mData 4 4 = 16909060 :=
  add_read_roundtrip (FieldPacker.mk [9, 9, 9, 9, 9, 9, 9, 9] 4 8) 4 16909060
    (by decide) rfl (by decide) (by decide) (by decide) (by decide)

/-- C6: on a fresh packer of capacity 8 (whatever the initial bytes),
`add(uint8_t 1)` leaves the cursor at 1; the alignment of the following
`add(uint32_t 2)` writes 3 zero bytes (cursor 4) and the value takes 4 bytes
(cursor 8), the buffer being `01 00 00 00 02 00 00 00`; a third `add` of any
one-byte `x` is dropped: cursor 8 and the buffer as before. -/
theorem scenario_capacity_eight (garbage : Nat → Nat) (x : Nat) :
    ∃ fp1 fp2,
      (FieldPacker.new 8 garbage).add 1 1 = .ok fp1 ∧ fp1.mPos = 1 ∧
      (∃ fpa, fp1.align 4 = .ok fpa ∧ fpa.mPos = 4 ∧ fpa.mData.take 4 = [1, 0, 0, 0]) ∧
      fp1.add 4 2 = .ok fp2 ∧
      fp2 = { mData := [1, 0, 0, 0, 2, 0, 0, 0], mPos := 8, mLen := 8 } ∧
      fp2.add 1 x = .ok fp2 := by
  refine ⟨FieldPacker.mk [1, garbage 1 % 256, garbage 2 % 256, garbage 3 % 256,
      garbage 4 % 256, garbage 5 % 256, garbage 6 % 256, garbage 7 % 256] 1 8,
    FieldPacker.mk [1, 0, 0, 0, 2, 0, 0, 0] 8 8, ?_, rfl,
    ⟨FieldPacker.mk [1, 0, 0, 0, garbage 4 % 256, garbage 5 % 256, garbage 6 % 256,
      garbage 7 % 256] 4 8, ?_, rfl, rfl⟩, ?_, rfl, ?_⟩
  · simp [FieldPacker.new, FieldPacker.add, FieldPacker.align, alignLoop, SIZE_MOD, memcpy,
      store, objectBytes, List.range, List.range.loop]
  · simp [FieldPacker.align, alignLoop, SIZE_MOD, store, (by decide : (4 : Nat) &&& 3 = 0)]
  · simp [FieldPacker.add, FieldPacker.align, alignLoop, SIZE_MOD, memcpy, store, objectBytes,
      List.range, List.range.loop, (by decide : (4 : Nat) &&& 3 = 0)]
  · simp [FieldPacker.add, FieldPacker.align, alignLoop, SIZE_MOD]

/-- C7 fails when `mPos + i` wraps around: on an 8-byte packer with the
cursor at 5, `skip(SIZE_MAX)` computes `5 + (2^64 - 1) = 4` in `size_t`,
passes the bounds check and moves the cursor back to 4. -/
theorem skip_wraps_backwards :
    2 ^ 64 - 1 < SIZE_MOD ∧
    (FieldPacker.mk [7, 7, 7, 7, 7, 7, 7, 7] 5 8).skip (2 ^ 64 - 1) =
      FieldPacker.mk [7, 7, 7, 7, 7, 7, 7, 7] 4 8 := by
  decide

/-- C8: `reset()` sets the cursor to 0; `reset(pos)` sets the cursor to `pos`
when `pos < capacity` and leaves it unchanged when `pos ≥ capacity`; neither
changes a buffer byte or the capacity. In particular `reset(capacity)` is
rejected, although `skip(capacity)` from cursor 0 puts the cursor at the
capacity. -/
theorem reset_spec (fp : FieldPacker) (pos : Nat) (hsz : fp.mLen < SIZE_MOD) :
    fp.reset.mPos = 0 ∧ fp.reset.mData = fp.mData ∧ fp.reset.mLen = fp.mLen ∧
    (fp.resetTo pos).mPos = (if pos < fp.mLen then pos else fp.mPos) ∧
    (fp.resetTo pos).mData = fp.mData ∧ (fp.resetTo pos).mLen = fp.mLen ∧
    fp.resetTo fp.mLen = fp ∧
    (fp.reset.skip fp.mLen).mPos = fp.mLen := by
  refine ⟨rfl, rfl, rfl, ?_, ?_, ?_, ?_, ?_⟩
  · by_cases h : pos < fp.mLen
    · simp [FieldPacker.resetTo, h, Nat.not_le.mpr h]
    · simp [FieldPacker.resetTo, h, Nat.not_lt.mp h]
  · unfold FieldPacker.resetTo; split <;> rfl
  · unfold FieldPacker.resetTo; split <;> rfl
  · simp [FieldPacker.resetTo]
  · simp [FieldPacker.reset, FieldPacker.skip, Nat.mod_eq_of_lt hsz]

/-- Witness of C8: a 4-byte packer with the cursor at 2 and `reset(3)`. -/
theorem reset_spec_witness :
    (FieldPacker.mk [7, 7, 7, 7] 2 4).reset.mPos = 0 ∧
    (FieldPacker.mk [7, 7, 7, 7] 2 4).reset.mData = [7, 7, 7, 7] ∧
    (FieldPacker.mk [7, 7, 7, 7] 2 4).reset.mLen = 4 ∧
    ((FieldPacker.mk [7, 7, 7, 7] 2 4).resetTo 3).mPos = (if 3 < 4 then 3 else 2) ∧
    ((FieldPacker.mk [7, 7, 7, 7] 2 4).resetTo 3).mData = [7, 7, 7, 7] ∧
    ((FieldPacker.mk [7, 7, 7, 7] 2 4).resetTo 3).mLen = 4 ∧
    (FieldPacker.mk [7, 7, 7, 7] 2 4).resetTo 4 = FieldPacker.mk [7, 7, 7, 7] 2 4 ∧
    ((FieldPacker.mk [7, 7, 7, 7] 2 4).reset.skip 4).mPos = 4 :=
  reset_spec (FieldPacker.mk [7, 7, 7, 7] 2 4) 3 (by decide)

/-- C9: `add(object)` marshals a reference as 4 bytes: for every packer state
`add` of an absent reference is `add(uint32_t 0)` and `add` of a reference to
an object with native handle `h` is `add(uint32_t (h mod 2^32))`; when the
4 bytes fit after alignment to 4 (at `p`), it returns with the cursor at
`p + 4`, the four bytes at `p` being those of that 32-bit value. -/
theorem addObj_spec (fp : FieldPacker) :
    fp.addObj none = fp.add 4 0 ∧
    (∀ h, fp.addObj (some h) = fp.add 4 (h % 2 ^ 32)) ∧
    (∀ (obj : Option Nat) (p : Nat), fp.mData.length = fp.mLen → fp.mLen < SIZE_MOD →
      4 ∣ p → fp.mPos ≤ p → (∀ q, 4 ∣ q → fp.mPos ≤ q → p ≤ q) → p + 4 ≤ fp.mLen →
      ∃ fp1, fp.addObj obj = .ok fp1 ∧ fp1.mPos = p + 4 ∧ fp1.mPos % 4 = 0 ∧
        (∀ i, i < 4 → fp1.mData[p + i]? =
          some ((match obj with | some h => h % 2 ^ 32 | none => 0) / 256 ^ i % 256))) := by
  refine ⟨rfl, fun _ => rfl, ?_⟩
  intro obj p hlen hsz hdiv hge hleast hfit
  have key : ∀ t, ∃ fp1, fp.add 4 t = .ok fp1 ∧ fp1.mPos = p + 4 ∧ fp1.mPos % 4 = 0 ∧
      (∀ i, i < 4 → fp1.mData[p + i]? = some (t / 256 ^ i % 256)) := by
    intro t
    obtain ⟨d, hd, _, _, hv, _⟩ := add_pow_two_fits fp 2 t p (by decide) hlen hsz hdiv hge
      hleast hfit
    exact ⟨_, hd, rfl, by show (p + 2 ^ 2) % 4 = 0; omega, hv⟩
  cases obj with
  | none => exact key 0
  | some h => exact key (h % 2 ^ 32)

/-- Witness of C9: a reference with handle `2^32 + 5` added at cursor 1 of an
8-byte packer. -/
theorem addObj_spec_witness :
    ∃ fp1, (FieldPacker.mk [9, 9, 9, 9, 9, 9, 9, 9] 1 8).addObj (some (2 ^ 32 + 5)) = .ok fp1 ∧
      fp1.mPos = 4 + 4 ∧ fp1.mPos % 4 = 0 ∧
      (∀ i, i < 4 → fp1.mData[4 + i]? = some ((2 ^ 32 + 5) % 2 ^ 32 / 256 ^ i % 256)) :=
  (addObj_spec (FieldPacker.mk [9, 9, 9, 9, 9, 9, 9, 9] 1 8)).2.2 (some (2 ^ 32 + 5)) 4
    rfl (by decide) (by decide) (by decide) (by intro q h1 h2; simp only at h2; omega)
    (by decide)

/-- C10: `Type::getSizeBytes()` is `getCount()` times the size in bytes of the
Type's Element, without wrap-around whenever that product fits in `size_t`. -/
theorem getSizeBytes_spec (T : RsType)
    (hfit : T.getCount * T.mElement.getSizeBytes < SIZE_MOD) :
    T.getSizeBytes = T.getCount * T.mElement.getSizeBytes := by
  simp only [RsType.getSizeBytes, RsType.getCount] at hfit ⊢
  exact Nat.mod_eq_of_lt hfit

/-- Witness of C10, the scenario of the specification: an element of size 8
and element count 8 (`dimX = 4`, `dimY = 2`, `dimZ = 1`) give 64 bytes. -/
theorem getSizeBytes_spec_witness :
    (RsType.mk 4 2 1 false false 8 (Element.mk 8 1)).getCount = 8 ∧
    (RsType.mk 4 2 1 false false 8 (Element.mk 8 1)).getSizeBytes = 64 :=
  ⟨rfl, getSizeBytes_spec (RsType.mk 4 2 1 false false 8 (Element.mk 8 1)) (by decide)⟩

/-- C11 fails on the code (cursor invariant `cursor ≤ capacity` after every
call of a sequence on a fresh packer): on a fresh packer of capacity 5,
`skip(5)` puts the cursor at the capacity, and the following `align(4)`, which
has no capacity test, stores at index 5, outside the 5-byte array, on its way
to cursor 8. -/
theorem cursor_invariant_broken_by_align :
    (FieldPacker.new 5 (fun _ => 7)).run [Op.skip 5] = .ok (FieldPacker.mk [7, 7, 7, 7, 7] 5 5) ∧
    (FieldPacker.new 5 (fun _ => 7)).run [Op.skip 5, Op.align 4] =
      .error (.outOfBounds 5) :=
  ⟨rfl, rfl⟩

/-- C12 fails on the code (`add` never writes outside the buffer): on a packer
of capacity 5 with the cursor at 5, within the capacity, `add` of a 4-byte
scalar stores its first padding byte at index 5, outside the 5-byte array. -/
theorem add_writes_past_capacity :
    ((FieldPacker.new 5 (fun _ => 7)).skip 5).mPos ≤
      ((FieldPacker.new 5 (fun _ => 7)).skip 5).mLen ∧
    ((FieldPacker.new 5 (fun _ => 7)).skip 5).add 4 2 = .error (.outOfBounds 5) :=
  ⟨by decide, rfl⟩

/-- C13: append-only frame property: for every packer state with cursor `c`
and every single call among `align(v)`, `skip(n)`, `add` of a scalar and
`add(object)`, the bytes at the indices below `c` are unchanged by the call;
and a call that does not return normally stopped at a store outside the array
at an index that is not below `c` either. -/
theorem frame_below_cursor (fp : FieldPacker) (op : Op)
    (hsz : fp.mData.length < SIZE_MOD) (hop : op.isReset = false) :
    (∀ fp1, fp.step op = .ok fp1 → ∀ i, i < fp.mPos → fp1.mData[i]? = fp.mData[i]?) ∧
    (∀ e, fp.step op = .error e → ∃ j, e = .outOfBounds j ∧ fp.mPos ≤ j) := by
  constructor
  · intro fp1 h
    cases op with
    | align v => exact (align_frame fp fp1 v hsz h).2.2.2.2
    | reset => simp [Op.isReset] at hop
    | resetTo i => simp [Op.isReset] at hop
    | skip n =>
      simp only [FieldPacker.step, Except.ok.injEq] at h
      subst h
      intro i _
      unfold FieldPacker.skip
      split <;> rfl
    | add size t => exact (add_frame fp fp1 size t hsz h).2.2.2
    | addObj obj =>
      cases obj with
      | none => exact (add_frame fp fp1 4 0 hsz h).2.2.2
      | some id => exact (add_frame fp fp1 4 (id % 2 ^ 32) hsz h).2.2.2
  · intro e h
    obtain ⟨j, hj, h1, _⟩ := step_fault fp op e hsz h
    exact ⟨j, hj, h1⟩

/-- Witness of C13: `add` of a 4-byte scalar at cursor 1 of an 8-byte packer
keeps the byte at index 0. -/
theorem frame_below_cursor_witness :
    Op.isReset (Op.add 4 2) = false ∧
    (FieldPacker.mk [1, 2, 3, 4, 5, 6, 7, 8] 1 8).step (Op.add 4 2) =
      .ok (FieldPacker.mk [1, 0, 0, 0, 2, 0, 0, 0] 8 8) ∧
    ([1, 0, 0, 0, 2, 0, 0, 0] : List Nat)[0]? = [1, 2, 3, 4, 5, 6, 7, 8][0]? :=
  ⟨rfl, rfl,
    (frame_below_cursor (FieldPacker.mk [1, 2, 3, 4, 5, 6, 7, 8] 1 8) (Op.add 4 2)
      (by decide) rfl).1 (FieldPacker.mk [1, 0, 0, 0, 2, 0, 0, 0] 8 8) rfl 0 (by decide)⟩

end RSC
